import Mathlib

/-!
# QOwnNotes link dialog (`src/dialogs/linkdialog.cpp`)

A shallow embedding of the controller logic of `LinkDialog` and of the few
`QString` operations it relies on, followed by the properties proved about it.

* A `QString` is a sequence of UTF-16 code units (`QChar`), as in Qt, so that
  `QString::count` is the length of the sequence.
* Everything the dialog only calls (note storage, network download, HTML
  unescaping, `QUrl` parsing, the file pickers, the portable-mode helpers) is a
  field of `Env`; every theorem holds for all environments.
-/

namespace QOwnNotes

/-! ## QString -/

/-- One UTF-16 code unit, given by its numeric value. -/
abbrev QChar := Nat

/-- A Qt string: the sequence of its code units. -/
abbrev QString := List QChar

/-- The `QString` of an ASCII string literal of the source. -/
def lit (s : String) : QString := s.toList.map Char.toNat

/-- `QChar::Space`. -/
def QChar.Space : QChar := 0x20

/-- `QChar::isSpace`: the ASCII blanks U+0009..U+000D and U+0020, then U+0085, U+00A0 and
the Unicode separator categories Zs, Zl and Zp. -/
def QChar.isSpace (c : QChar) : Bool :=
  c == 0x20 || (0x09 ≤ c && c ≤ 0x0d) ||
    (127 < c && (c == 0x85 || c == 0xa0 || c == 0x1680 || (0x2000 ≤ c && c ≤ 0x200a) ||
      c == 0x2028 || c == 0x2029 || c == 0x202f || c == 0x205f || c == 0x3000))

/-- `QString::startsWith(p)`. -/
def QString.startsWith (s p : QString) : Bool := p.isPrefixOf s

/-- `QString::contains(p)`: `p` occurs at some offset of `s`; offsets are tried from the left. -/
def QString.contains : QString → QString → Bool
  | [], p => p.isPrefixOf []
  | c :: cs, p => p.isPrefixOf (c :: cs) || QString.contains cs p

/-- `QString::trimmed()`: white space is cut from the end, then from the start. -/
def QString.trimmed (s : QString) : QString :=
  (s.rdropWhile QChar.isSpace).dropWhile QChar.isSpace

/-- The `forever` loop of Qt's `simplified_helper`: skip white space, copy a run of
non-space characters, stop at the end of the input, otherwise emit one space and repeat.
Every round but the last consumes a white-space character, so `s.length + 1` rounds
always suffice (`simplifiedLoop_fuel`). -/
def QString.simplifiedLoop : Nat → QString → QString
  | 0, _ => []
  | fuel + 1, src =>
    let src1 := src.dropWhile QChar.isSpace
    let word := src1.takeWhile (fun c => !QChar.isSpace c)
    let src2 := src1.dropWhile (fun c => !QChar.isSpace c)
    if src2.isEmpty then word
    else word ++ QChar.Space :: QString.simplifiedLoop fuel src2

/-- `QString::simplified()`: the loop above, then a trailing space is removed. -/
def QString.simplified (s : QString) : QString :=
  let r := QString.simplifiedLoop (s.length + 1) s
  if r.getLast? = some QChar.Space then r.dropLast else r

/-- The scan of `QString::replace(before, after)` for a non-empty `before`: occurrences
are found from the left and do not overlap; the search resumes behind each one. -/
def QString.replaceLoop (before after : QString) : Nat → QString → QString
  | 0, _ => []
  | _ + 1, [] => []
  | fuel + 1, c :: cs =>
    if before.isPrefixOf (c :: cs) then
      after ++ QString.replaceLoop before after fuel ((c :: cs).drop before.length)
    else c :: QString.replaceLoop before after fuel cs

/-- `QString::replace(before, after)` for the non-empty patterns the dialog uses. Every
round consumes a character, so `s.length + 1` rounds suffice (`replaceLoop_fuel`). -/
def QString.replace (s before after : QString) : QString :=
  QString.replaceLoop before after (s.length + 1) s

/-! ## The title regular expression

`<title>(.*)<\/title>` with `DotMatchesEverythingOption` (the dot matches any character,
newlines included), `InvertedGreedinessOption` (the star is lazy) and `MultilineOption`
(only changes `^` and `$`, which the pattern does not use). The matcher below is the
backtracking search of the regular expression engine, spelled out for this pattern. The
subject is text decoded by the download helper, hence well-formed UTF-16: the dot then
consumes a whole code point, and as neither literal begins inside a surrogate pair, walking
code unit by code unit finds the same match. -/

/-- The literal `<title>`. -/
def titleOpen : QString := lit "<title>"

/-- The literal `</title>` (the pattern escapes the slash). -/
def titleClose : QString := lit "</title>"

/-- The lazy `(.*)` followed by the literal `close`, matched at the start of the subject:
the group first tries to be empty and grows by one character each time `close` does not
follow. Gives the text of the group. -/
def lazyGroupThen (close : QString) : QString → Option QString
  | [] => if close.isPrefixOf [] then some [] else none
  | c :: cs =>
    if close.isPrefixOf (c :: cs) then some []
    else (lazyGroupThen close cs).map (fun g => c :: g)

/-- The whole pattern matched at the start of the subject. -/
def titleMatchHere (s : QString) : Option QString :=
  if titleOpen.isPrefixOf s then lazyGroupThen titleClose (s.drop titleOpen.length) else none

/-- `regex.match(html)`: the start offsets are tried from the left and the first offset at
which the pattern matches wins. Gives capture group 1 of the match, if there is one. -/
def titleRegexMatch : QString → Option QString
  | [] => titleMatchHere []
  | c :: cs =>
    match titleMatchHere (c :: cs) with
    | some g => some g
    | none => titleRegexMatch cs

/-- `match.captured(1)`: the group, or the null string when there is no match. -/
def titleCaptured (html : QString) : QString := (titleRegexMatch html).getD []

/-! ## The dialog and its collaborators -/

/-- A `QUrl`, kept as the text it was built from; what Qt derives from it (validity, scheme,
local file, encoded form) is read through `Env`. `QUrl()` is the URL of the empty text. -/
structure QUrl where
  text : QString
deriving DecidableEq, Repr

/-- A row of `notesListWidget`: the note name, the note id stored under `Qt::UserRole`,
and the hidden flag. -/
structure QListWidgetItem where
  text : QString
  noteId : Int
  hidden : Bool
deriving DecidableEq, Repr

/-- The two keys of the settings store the dialog uses. -/
structure QSettings where
  /-- Key `LinkDialog/lastSelectedFileUrl`. -/
  lastSelectedFileUrl : QString
  /-- Key `LinkDialog/lastSelectedDirectoryUrl`. -/
  lastSelectedDirectoryUrl : QString
deriving DecidableEq, Repr

/-- The objects an event can be sent to, and that can hold the keyboard focus. -/
inductive Widget where
  | urlEdit
  | searchLineEdit
  | notesListWidget
  | other
deriving DecidableEq, Repr

/-- A `QEvent`: its type and, for key events, the key. -/
structure QEvent where
  type : Nat
  key : Nat
deriving DecidableEq, Repr

/-- `QEvent::KeyPress`. -/
def QEvent.KeyPress : Nat := 6

/-- `Qt::Key_Tab`. -/
def Key_Tab : Nat := 0x01000001

/-- `Qt::Key_Return`. -/
def Key_Return : Nat := 0x01000004

/-- `Qt::Key_Down`. -/
def Key_Down : Nat := 0x01000015

/-- The state the handlers of `LinkDialog` read and write. -/
structure LinkDialog where
  /-- The rows of `ui->notesListWidget`. -/
  items : List QListWidgetItem
  /-- `ui->notesListWidget->currentRow()`, `-1` when there is no current item. -/
  currentRow : Int
  firstVisibleNoteListRow : Int
  /-- The text of `ui->urlEdit`. -/
  urlEdit : QString
  /-- The text of `ui->nameLineEdit`. -/
  nameLineEdit : QString
  /-- The widget holding the keyboard focus. -/
  focus : Widget
  /-- The persistent settings store. -/
  settings : QSettings
deriving DecidableEq, Repr

/-- What `linkdialog.cpp` calls but does not define. -/
structure Env where
  /-- `Note::fetchAll()`: name and id of every note. -/
  fetchAll : List (QString × Int)
  /-- `Note::searchAsNameList(text, true)`. -/
  searchAsNameList : QString → List QString
  /-- `Utils::Misc::downloadUrl`. -/
  downloadUrl : QUrl → QString
  /-- `Utils::Misc::unescapeHtml`. -/
  unescapeHtml : QString → QString
  /-- `QUrl::isValid`. -/
  urlIsValid : QUrl → Bool
  /-- `QUrl::scheme`. -/
  urlScheme : QUrl → QString
  /-- `QUrl::toLocalFile`. -/
  urlToLocalFile : QUrl → QString
  /-- `QUrl::toString(QUrl::FullyEncoded)`. -/
  urlToString : QUrl → QString
  /-- `Utils::Misc::isInPortableMode`. -/
  isInPortableMode : Bool
  /-- `Utils::Misc::prependPortableDataPathIfNeeded`. -/
  prependPortableDataPathIfNeeded : QString → QString
  /-- `Utils::Misc::removeIfStartsWith`. -/
  removeIfStartsWith : QString → QString → QString
  /-- `Utils::Misc::makePathRelativeToPortableDataPathIfNeeded`. -/
  makePathRelativeToPortableDataPathIfNeeded : QString → QString
  /-- `QFileDialog::getOpenFileUrl`, given the start URL: the user's choice, the empty URL
  when the user cancels. -/
  getOpenFileUrl : QUrl → QUrl
  /-- `QFileDialog::getExistingDirectoryUrl`, likewise. -/
  getExistingDirectoryUrl : QUrl → QUrl
  /-- `MasterDialog::eventFilter`, for objects the dialog does not handle itself. -/
  masterEventFilter : Widget → QEvent → Bool

/-- The scan of `QList<QString>::indexOf` from position `i` on. -/
def indexOfFrom (t : QString) : List QString → Int → Int
  | [], _ => -1
  | x :: xs, i => if x = t then i else indexOfFrom t xs (i + 1)

/-- `QList<QString>::indexOf`: the first position of `t`, `-1` when it is absent. -/
def indexOf (l : List QString) (t : QString) : Int := indexOfFrom t l 0

namespace LinkDialog

/-- `ui->notesListWidget->count()`. -/
def count (d : LinkDialog) : Int := d.items.length

/-- `ui->notesListWidget->currentItem()`; `none` is the null pointer. -/
def currentItem (d : LinkDialog) : Option QListWidgetItem :=
  if 0 ≤ d.currentRow then d.items[d.currentRow.toNat]? else none

/-- `ui->notesListWidget->setCurrentRow(row)`: a row outside the list gives an invalid
index, which leaves the list without a current item. -/
def setCurrentRow (d : LinkDialog) (row : Int) : LinkDialog :=
  { d with currentRow := if 0 ≤ row ∧ row < d.count then row else -1 }

/-- `getTitleForUrl`, from the downloaded HTML on. -/
def titleOfHtml (env : Env) (html : QString) : QString :=
  if html.isEmpty then []
  else
    let title := titleCaptured html
    let title := env.unescapeHtml title
    let title :=
      (((((((title.replace (lit "[") (lit "(")).replace (lit "]") (lit ")")).replace
        (lit "<") (lit "(")).replace (lit ">") (lit ")")).replace
        (lit "&#8211;") (lit "-")).replace (lit "&#124;") (lit "-")).replace
        (lit "&#038;") (lit "&")).replace (lit "&#39;") (lit "'")
    title.simplified

/-- `LinkDialog::getTitleForUrl`. -/
def getTitleForUrl (env : Env) (url : QUrl) : QString :=
  titleOfHtml env (env.downloadUrl url)

/-- `LinkDialog::on_urlEdit_textChanged`. -/
def on_urlEdit_textChanged (env : Env) (d : LinkDialog) (arg1 : QString) : LinkDialog :=
  let url := QUrl.mk arg1
  if !env.urlIsValid url then d
  else if (env.urlScheme url).startsWith (lit "http") && d.nameLineEdit.isEmpty then
    let title := getTitleForUrl env url
    if !title.isEmpty then { d with nameLineEdit := title } else d
  else d

/-- `ui->urlEdit->setText(text)`: the line edit emits `textChanged` when its text really
changes, and `setupUi` connects that signal to `on_urlEdit_textChanged`. -/
def setUrlEditText (env : Env) (d : LinkDialog) (text : QString) : LinkDialog :=
  if d.urlEdit = text then d
  else on_urlEdit_textChanged env { d with urlEdit := text } text

/-- The body of the first loop of `on_searchLineEdit_textChanged`, run over the rows from
row `i` on: gives the rows and the value of `firstVisibleNoteListRow` after the loop. -/
def searchLoop (noteNameList : List QString) :
    Int → List QListWidgetItem → Int → List QListWidgetItem × Int
  | _, [], first => ([], first)
  | i, item :: rest, first =>
    if indexOf noteNameList item.text < 0 then
      let r := searchLoop noteNameList (i + 1) rest first
      ({ item with hidden := true } :: r.1, r.2)
    else
      let first := if first < 0 then i else first
      let r := searchLoop noteNameList (i + 1) rest first
      ({ item with hidden := false } :: r.1, r.2)

/-- The second loop of `on_searchLineEdit_textChanged`: every row is shown. -/
def showAll : List QListWidgetItem → List QListWidgetItem
  | [] => []
  | item :: rest => { item with hidden := false } :: showAll rest

/-- `LinkDialog::on_searchLineEdit_textChanged`. -/
def on_searchLineEdit_textChanged (env : Env) (d : LinkDialog) (arg1 : QString) :
    LinkDialog :=
  if arg1.length ≥ 2 then
    let noteNameList := env.searchAsNameList arg1
    let r := searchLoop noteNameList 0 d.items (-1)
    { d with items := r.1, firstVisibleNoteListRow := r.2 }
  else
    { d with items := showAll d.items, firstVisibleNoteListRow := 0 }

/-- `LinkDialog::getURL`. -/
def getURL (d : LinkDialog) : QString :=
  let url := d.urlEdit.trimmed
  if !url.isEmpty && !url.contains (lit "://") then lit "http://" ++ url else url

/-- `LinkDialog::eventFilter`: the return value and the state afterwards. -/
def eventFilter (env : Env) (d : LinkDialog) (obj : Widget) (event : QEvent) :
    Bool × LinkDialog :=
  if obj = Widget.searchLineEdit then
    if event.type = QEvent.KeyPress then
      if event.key = Key_Down ∨ event.key = Key_Tab then
        let d1 :=
          match d.currentItem with
          | some item =>
            if item.hidden && decide (d.firstVisibleNoteListRow ≥ 0) then
              d.setCurrentRow d.firstVisibleNoteListRow
            else d
          | none => d
        (true, { d1 with focus := Widget.notesListWidget })
      else (false, d)
    else (false, d)
  else if obj = Widget.notesListWidget then
    if event.type = QEvent.KeyPress then
      if event.key = Key_Return ∨ event.key = Key_Tab then (true, d) else (false, d)
    else (false, d)
  else (env.masterEventFilter obj event, d)

/-- `LinkDialog::addFileUrl`. -/
def addFileUrl (env : Env) (d : LinkDialog) : LinkDialog :=
  let fileUrl := QUrl.mk d.settings.lastSelectedFileUrl
  let fileUrl :=
    if env.isInPortableMode then
      QUrl.mk (lit "file://" ++ env.prependPortableDataPathIfNeeded
        (env.removeIfStartsWith (env.urlToLocalFile fileUrl) (lit "/")))
    else fileUrl
  let fileUrl := env.getOpenFileUrl fileUrl
  let fileUrlString := env.urlToString fileUrl
  let fileUrlString :=
    if env.isInPortableMode then
      lit "file://" ++ env.urlToString (QUrl.mk (lit "../" ++
        env.makePathRelativeToPortableDataPathIfNeeded (env.urlToLocalFile fileUrl)))
    else fileUrlString
  if !fileUrlString.isEmpty then
    setUrlEditText env
      { d with settings := { d.settings with lastSelectedFileUrl := fileUrlString } }
      fileUrlString
  else d

/-- `LinkDialog::addDirectoryUrl`. -/
def addDirectoryUrl (env : Env) (d : LinkDialog) : LinkDialog :=
  let directoryUrl := QUrl.mk d.settings.lastSelectedDirectoryUrl
  let directoryUrl :=
    if env.isInPortableMode then
      QUrl.mk (lit "file://" ++ env.prependPortableDataPathIfNeeded
        (env.removeIfStartsWith (env.urlToLocalFile directoryUrl) (lit "/")))
    else directoryUrl
  let directoryUrl := env.getExistingDirectoryUrl directoryUrl
  let directoryUrlString := env.urlToString directoryUrl
  let directoryUrlString :=
    if env.isInPortableMode then
      lit "file://" ++ env.urlToString (QUrl.mk (lit "../" ++
        env.makePathRelativeToPortableDataPathIfNeeded (env.urlToLocalFile directoryUrl)))
    else directoryUrlString
  if !directoryUrlString.isEmpty then
    setUrlEditText env
      { d with settings :=
          { d.settings with lastSelectedDirectoryUrl := directoryUrlString } }
      directoryUrlString
  else d

/-- The rows the constructor adds for the notes of `Note::fetchAll()`. -/
def noteItems : List (QString × Int) → List QListWidgetItem
  | [] => []
  | note :: rest => { text := note.1, noteId := note.2, hidden := false } :: noteItems rest

/-- The constructor `LinkDialog::LinkDialog`, given the clipboard text and the settings
store: the fields a fresh dialog starts with. -/
def create (env : Env) (clipboard : QString) (settings : QSettings) : LinkDialog :=
  let d : LinkDialog :=
    { items := noteItems env.fetchAll, currentRow := -1, firstVisibleNoteListRow := 0,
      urlEdit := [], nameLineEdit := [], focus := Widget.urlEdit, settings := settings }
  let d := d.setCurrentRow 0
  let url := QUrl.mk clipboard
  if env.urlIsValid url && !(env.urlScheme url).isEmpty then setUrlEditText env d clipboard
  else d

end LinkDialog

/-! ## Predicates on dialog states -/

/-- The field `firstVisibleNoteListRow` is the smallest index of a row that is not hidden,
or `-1` when every row is hidden. -/
def TracksFirstVisible (d : LinkDialog) : Prop :=
  (∃ k : Nat, d.firstVisibleNoteListRow = k ∧
      (∃ item, d.items[k]? = some item ∧ item.hidden = false) ∧
      ∀ j, j < k → ∀ item, d.items[j]? = some item → item.hidden = true) ∨
    (d.firstVisibleNoteListRow = -1 ∧ ∀ item ∈ d.items, item.hidden = true)

/-- What the handlers keep true of `firstVisibleNoteListRow`: when it is not negative and
the list has rows, it is the index of a row that is not hidden. The constructor
establishes it (`LinkDialog.create_wellFormed`) and every handler keeps it. -/
def WellFormed (d : LinkDialog) : Prop :=
  0 ≤ d.firstVisibleNoteListRow → d.items ≠ [] →
    (d.items[d.firstVisibleNoteListRow.toNat]?).map QListWidgetItem.hidden = some false

instance (d : LinkDialog) : Decidable (WellFormed d) := by
  unfold WellFormed
  infer_instance

/-- The event is a `KeyPress` of `Key_Down` or `Key_Tab`. -/
def QEvent.isListKey (event : QEvent) : Prop :=
  event.type = QEvent.KeyPress ∧ (event.key = Key_Down ∨ event.key = Key_Tab)

instance (event : QEvent) : Decidable event.isListKey := by
  unfold QEvent.isListKey
  infer_instance

/-! ## Sample data

A small environment and dialog on which the statements below are evaluated. -/

/-- Two notes; a search for `be` finds the second; `http://a` serves a page with a title and
every other URL a page whose title tag is never closed; URLs are kept verbatim and the
pickers are cancelled. -/
def sampleEnv : Env where
  fetchAll := [(lit "alpha", 1), (lit "beta", 2)]
  searchAsNameList := fun q => if q = lit "be" then [lit "beta"] else []
  downloadUrl := fun u =>
    if u.text = lit "http://a" then lit "<html><title>A [page]\n</title><title>B</title>"
    else lit "<html><title>no end"
  unescapeHtml := fun t => t
  urlIsValid := fun _ => true
  urlScheme := fun u => u.text.takeWhile (fun c => c != 58)
  urlToLocalFile := fun u => if (lit "file://").isPrefixOf u.text then u.text.drop 7 else []
  urlToString := fun u => u.text
  isInPortableMode := false
  prependPortableDataPathIfNeeded := fun t => lit "/data/" ++ t
  removeIfStartsWith := fun t p => if p.isPrefixOf t then t.drop p.length else t
  makePathRelativeToPortableDataPathIfNeeded := fun t =>
    if (lit "/data/").isPrefixOf t then t.drop 6 else t
  getOpenFileUrl := fun _ => QUrl.mk []
  getExistingDirectoryUrl := fun _ => QUrl.mk []
  masterEventFilter := fun _ _ => false

/-- The sample environment in portable mode. -/
def samplePortableEnv : Env := { sampleEnv with isInPortableMode := true }

/-- A fresh dialog over the sample environment: empty clipboard, empty settings. -/
def sampleDialog : LinkDialog := LinkDialog.create sampleEnv [] ⟨[], []⟩

/-- The sample environment without any note. -/
def sampleEmptyEnv : Env := { sampleEnv with fetchAll := [] }

/-- A fresh dialog when there are no notes. -/
def sampleEmptyDialog : LinkDialog := LinkDialog.create sampleEmptyEnv [] ⟨[], []⟩

/-- A press of the Down key. -/
def sampleKeyDown : QEvent := ⟨QEvent.KeyPress, Key_Down⟩

/-! ## Facts about the string operations -/

theorem isPrefixOf_iff (p s : QString) : p.isPrefixOf s = true ↔ p <+: s :=
  List.isPrefixOf_iff_prefix

theorem QString.contains_iff (s p : QString) : s.contains p = true ↔ p <:+: s := by
  induction s with
  | nil => simp [QString.contains, isPrefixOf_iff]
  | cons c cs ih =>
    simp only [QString.contains, Bool.or_eq_true, isPrefixOf_iff, ih, List.infix_cons_iff]

theorem infix_of_prefix_drop {p s : QString} {k : Nat} (h : p <+: s.drop k) : p <:+: s := by
  obtain ⟨t, ht⟩ := h
  refine ⟨s.take k, t, ?_⟩
  rw [List.append_assoc, ht, List.take_append_drop]

theorem lazyGroupThen_eq_none (close s : QString) :
    lazyGroupThen close s = none ↔ ¬ close <:+: s := by
  induction s with
  | nil => simp [lazyGroupThen, isPrefixOf_iff]
  | cons c cs ih =>
    by_cases hp : close <+: c :: cs
    · simp [lazyGroupThen, (isPrefixOf_iff _ _).2 hp, List.infix_cons_iff, hp]
    · have hb : close.isPrefixOf (c :: cs) = false :=
        Bool.eq_false_iff.2 (fun h => hp ((isPrefixOf_iff _ _).1 h))
      simp [lazyGroupThen, hb, ih, List.infix_cons_iff, hp]

theorem lazyGroupThen_eq_some (close s g : QString) (h : lazyGroupThen close s = some g) :
    (∃ rest, s = g ++ close ++ rest) ∧ ∀ k, k < g.length → ¬ close <+: s.drop k := by
  induction s generalizing g with
  | nil =>
    by_cases hp : close.isPrefixOf ([] : QString) = true
    · simp only [lazyGroupThen, hp, if_true, Option.some.injEq] at h
      subst h
      have hc : close = [] := by simpa [isPrefixOf_iff] using hp
      exact ⟨⟨[], by simp [hc]⟩, by simp⟩
    · simp [lazyGroupThen, hp] at h
  | cons c cs ih =>
    by_cases hp : close.isPrefixOf (c :: cs) = true
    · simp only [lazyGroupThen, hp, if_true, Option.some.injEq] at h
      subst h
      obtain ⟨t, ht⟩ := (isPrefixOf_iff _ _).1 hp
      exact ⟨⟨t, by simp [ht]⟩, by simp⟩
    · simp only [lazyGroupThen, hp, Bool.false_eq_true, if_false] at h
      obtain ⟨g1, hl, hg⟩ := Option.map_eq_some'.1 h
      subst hg
      obtain ⟨⟨rest, hrest⟩, hmin⟩ := ih g1 hl
      refine ⟨⟨rest, by simp [hrest]⟩, ?_⟩
      intro k hk
      cases k with
      | zero => simpa [isPrefixOf_iff] using hp
      | succ k =>
        simp only [List.drop_succ_cons]
        exact hmin k (by simpa using hk)

theorem titleMatchHere_eq_none (s : QString) :
    titleMatchHere s = none ↔ ¬ ∃ b c, s = titleOpen ++ b ++ titleClose ++ c := by
  unfold titleMatchHere
  by_cases hp : titleOpen.isPrefixOf s = true
  · obtain ⟨t, rfl⟩ := (isPrefixOf_iff _ _).1 hp
    simp only [hp, if_true, List.drop_left, lazyGroupThen_eq_none, not_iff_not]
    constructor
    · rintro ⟨b, c, h⟩
      exact ⟨b, c, by simp [← h]⟩
    · rintro ⟨b, c, h⟩
      refine ⟨b, c, ?_⟩
      simpa [List.append_assoc] using h.symm
  · simp only [hp, Bool.false_eq_true, if_false, true_iff]
    rintro ⟨b, c, rfl⟩
    exact hp ((isPrefixOf_iff _ _).2 ⟨b ++ titleClose ++ c, by simp⟩)

theorem titleRegexMatch_eq_none (s : QString) :
    titleRegexMatch s = none ↔ ¬ ∃ a b c, s = a ++ titleOpen ++ b ++ titleClose ++ c := by
  induction s with
  | nil =>
    simp only [titleRegexMatch, titleMatchHere_eq_none, not_iff_not]
    constructor
    · rintro ⟨b, c, h⟩
      exact ⟨[], b, c, by simpa using h⟩
    · rintro ⟨a, b, c, h⟩
      have ha : a = [] := by
        have := congrArg List.length h
        simp at this
        exact List.length_eq_zero.1 (by omega)
      subst ha
      exact ⟨b, c, by simpa using h⟩
  | cons x xs ih =>
    unfold titleRegexMatch
    cases hm : titleMatchHere (x :: xs) with
    | some g =>
      simp only [reduceCtorEq, false_iff, not_not]
      have hne : titleMatchHere (x :: xs) ≠ none := by simp [hm]
      rw [Ne, titleMatchHere_eq_none, not_not] at hne
      obtain ⟨b, c, h⟩ := hne
      exact ⟨[], b, c, by simpa using h⟩
    | none =>
      simp only [ih, not_iff_not]
      rw [titleMatchHere_eq_none] at hm
      constructor
      · rintro ⟨a, b, c, h⟩
        exact ⟨x :: a, b, c, by simp [h]⟩
      · rintro ⟨a, b, c, h⟩
        cases a with
        | nil => exact absurd ⟨b, c, by simpa using h⟩ hm
        | cons y a =>
          simp only [List.cons_append, List.cons.injEq] at h
          exact ⟨a, b, c, h.2⟩

theorem titleMatchHere_eq_some (s g : QString) (h : titleMatchHere s = some g) :
    (∃ c, s = titleOpen ++ g ++ titleClose ++ c) ∧
      ∀ k, k < g.length → ¬ titleClose <+: (s.drop titleOpen.length).drop k := by
  unfold titleMatchHere at h
  by_cases hp : titleOpen.isPrefixOf s = true
  · obtain ⟨t, rfl⟩ := (isPrefixOf_iff _ _).1 hp
    simp only [hp, if_true, List.drop_left] at h
    obtain ⟨⟨rest, hrest⟩, hmin⟩ := lazyGroupThen_eq_some _ _ _ h
    refine ⟨⟨rest, by simp [hrest]⟩, ?_⟩
    simpa using hmin
  · simp [hp] at h

theorem infix_drop_of_le {u p c : QString} {n : Nat} (hn : n ≤ u.length) :
    p <:+: (u ++ p ++ c).drop n := by
  refine ⟨u.drop n, c, ?_⟩
  rw [List.append_assoc u p c, List.drop_append_of_le_length hn, List.append_assoc]

theorem titleRegexMatch_eq_some (s g : QString) (h : titleRegexMatch s = some g) :
    ∃ a c, s = a ++ titleOpen ++ g ++ titleClose ++ c ∧
      (∀ k, k < a.length → ¬ titleOpen <+: s.drop k) ∧
      (∀ k, k < g.length → ¬ titleClose <+: (g ++ titleClose ++ c).drop k) := by
  have key : ∀ t : QString, titleMatchHere t = some g →
      ∃ a c, t = a ++ titleOpen ++ g ++ titleClose ++ c ∧
        (∀ k, k < a.length → ¬ titleOpen <+: t.drop k) ∧
        (∀ k, k < g.length → ¬ titleClose <+: (g ++ titleClose ++ c).drop k) := by
    intro t ht
    obtain ⟨⟨c, hc⟩, hmin⟩ := titleMatchHere_eq_some _ _ ht
    refine ⟨[], c, by simpa using hc, by simp, ?_⟩
    intro k hk
    have := hmin k hk
    rw [hc] at this
    simpa [List.append_assoc] using this
  induction s with
  | nil => exact key _ (by simpa [titleRegexMatch] using h)
  | cons x xs ih =>
    unfold titleRegexMatch at h
    cases hm : titleMatchHere (x :: xs) with
    | some g1 =>
      rw [hm] at h
      simp only [Option.some.injEq] at h
      subst h
      exact key _ hm
    | none =>
      rw [hm] at h
      simp only at h
      obtain ⟨a, c, hs, hfirst, hmin⟩ := ih h
      refine ⟨x :: a, c, by simp [hs], ?_, hmin⟩
      intro k hk
      cases k with
      | zero =>
        rintro ⟨t, ht⟩
        rw [titleMatchHere_eq_none] at hm
        apply hm
        have hinf : titleClose <:+: t := by
          have h1 : titleClose <:+: ((x :: a ++ titleOpen ++ g) ++ titleClose ++ c).drop
              titleOpen.length :=
            infix_drop_of_le (by simp; omega)
          have h2 : (x :: a ++ titleOpen ++ g) ++ titleClose ++ c = titleOpen ++ t := by
            rw [ht, hs]; simp
          rw [h2, List.drop_left] at h1
          exact h1
        obtain ⟨b, c1, hb⟩ := hinf
        exact ⟨b, c1, by rw [← hb] at ht; simpa [List.append_assoc] using ht.symm⟩
      | succ k =>
        simp only [List.drop_succ_cons]
        exact hfirst k (by simpa using hk)

/-- The captured text never holds the closing literal: a match of the lazy group stops at
the first place where `</title>` follows. -/
theorem not_infix_of_first {p g c : QString} (hp : p ≠ [])
    (hmin : ∀ k, k < g.length → ¬ p <+: (g ++ p ++ c).drop k) : ¬ p <:+: g := by
  rintro ⟨u, v, huv⟩
  have hlen : u.length < g.length := by
    have := congrArg List.length huv
    have hpl : 0 < p.length := List.length_pos.2 hp
    simp at this
    omega
  apply hmin u.length hlen
  rw [← huv]
  simp [List.append_assoc]

/-! ### `replace` -/

theorem QString.mem_replaceLoop (before after : QString) (n : Nat) (s : QString) (x : QChar)
    (h : x ∈ QString.replaceLoop before after n s) : x ∈ s ∨ x ∈ after := by
  induction n generalizing s with
  | zero => simp [QString.replaceLoop] at h
  | succ n ih =>
    cases s with
    | nil => simp [QString.replaceLoop] at h
    | cons c cs =>
      by_cases hp : before.isPrefixOf (c :: cs) = true
      · simp only [QString.replaceLoop, hp, if_true, List.mem_append] at h
        rcases h with h | h
        · exact Or.inr h
        · rcases ih _ h with h1 | h1
          · exact Or.inl (List.mem_of_mem_drop h1)
          · exact Or.inr h1
      · simp only [QString.replaceLoop, hp, Bool.false_eq_true, if_false,
          List.mem_cons] at h
        rcases h with h | h
        · exact Or.inl (by simp [h])
        · rcases ih _ h with h1 | h1
          · exact Or.inl (List.mem_cons_of_mem _ h1)
          · exact Or.inr h1

theorem QString.mem_replace (s before after : QString) (x : QChar)
    (h : x ∈ s.replace before after) : x ∈ s ∨ x ∈ after :=
  QString.mem_replaceLoop _ _ _ _ _ h

theorem QString.not_mem_replaceLoop_single (x : QChar) (after : QString) (hx : x ∉ after)
    (n : Nat) (s : QString) : x ∉ QString.replaceLoop [x] after n s := by
  induction n generalizing s with
  | zero => simp [QString.replaceLoop]
  | succ n ih =>
    cases s with
    | nil => simp [QString.replaceLoop]
    | cons c cs =>
      by_cases hc : x = c
      · subst hc
        simp only [QString.replaceLoop, List.isPrefixOf, beq_self_eq_true, Bool.and_self,
          if_true, List.mem_append, not_or]
        exact ⟨hx, ih _⟩
      · have hb : (x == c) = false := by simpa using hc
        simp only [QString.replaceLoop, List.isPrefixOf, hb, Bool.false_and,
          Bool.false_eq_true, if_false, List.mem_cons, not_or]
        exact ⟨hc, ih _⟩

theorem QString.not_mem_replace_single (s : QString) (x : QChar) (after : QString)
    (hx : x ∉ after) : x ∉ s.replace [x] after :=
  QString.not_mem_replaceLoop_single x after hx _ s

/-- More fuel than `s.length` never changes the result of the scan. -/
theorem QString.replaceLoop_fuel (before after : QString) (hb : before ≠ []) (n m : Nat)
    (s : QString) (hn : s.length < n) (hm : s.length < m) :
    QString.replaceLoop before after n s = QString.replaceLoop before after m s := by
  induction n generalizing m s with
  | zero => omega
  | succ n ih =>
    cases m with
    | zero => omega
    | succ m =>
      cases s with
      | nil => simp [QString.replaceLoop]
      | cons c cs =>
        have hpos : 0 < before.length := List.length_pos.2 hb
        have hd : ((c :: cs).drop before.length).length ≤ cs.length := by
          simp only [List.length_drop, List.length_cons]; omega
        simp only [List.length_cons] at hn hm
        simp only [QString.replaceLoop]
        rw [ih m _ (by omega) (by omega), ih m cs (by omega) (by omega)]

/-- The scan, without fuel: an occurrence at the front is replaced and the scan resumes
behind it; otherwise the first character is kept. -/
theorem QString.replace_cons (before after : QString) (hb : before ≠ []) (c : QChar)
    (cs : QString) :
    QString.replace (c :: cs) before after =
      if before.isPrefixOf (c :: cs) then
        after ++ QString.replace ((c :: cs).drop before.length) before after
      else c :: QString.replace cs before after := by
  have hpos : 0 < before.length := List.length_pos.2 hb
  have hd : ((c :: cs).drop before.length).length ≤ cs.length := by
    simp only [List.length_drop, List.length_cons]; omega
  unfold QString.replace
  simp only [List.length_cons, QString.replaceLoop]
  rw [QString.replaceLoop_fuel before after hb (cs.length + 1) _ ((c :: cs).drop before.length)
    (by omega) (Nat.lt_succ_self _)]

/-! ### `simplified` -/

theorem QString.mem_simplifiedLoop (n : Nat) (s : QString) (x : QChar)
    (h : x ∈ QString.simplifiedLoop n s) : x ∈ s ∨ x = QChar.Space := by
  induction n generalizing s with
  | zero => simp [QString.simplifiedLoop] at h
  | succ n ih =>
    simp only [QString.simplifiedLoop] at h
    have hword : ∀ y, y ∈ (s.dropWhile QChar.isSpace).takeWhile (fun c => !QChar.isSpace c) →
        y ∈ s := fun y hy =>
      (List.dropWhile_sublist _).subset ((List.takeWhile_sublist _).subset hy)
    split at h
    · exact Or.inl (hword _ h)
    · simp only [List.mem_append, List.mem_cons] at h
      rcases h with h | h | h
      · exact Or.inl (hword _ h)
      · exact Or.inr h
      · rcases ih _ h with h1 | h1
        · exact Or.inl ((List.dropWhile_sublist _).subset ((List.dropWhile_sublist _).subset h1))
        · exact Or.inr h1

theorem QString.mem_simplified (s : QString) (x : QChar) (h : x ∈ s.simplified) :
    x ∈ s ∨ x = QChar.Space := by
  unfold QString.simplified at h
  simp only at h
  split at h
  · exact QString.mem_simplifiedLoop _ _ _ ((List.dropLast_sublist _).subset h)
  · exact QString.mem_simplifiedLoop _ _ _ h

theorem QString.simplified_nil : QString.simplified [] = [] := by decide

theorem QString.length_simplified_rest (s : QString)
    (h : ((s.dropWhile QChar.isSpace).dropWhile (fun c => !QChar.isSpace c)) ≠ []) :
    ((s.dropWhile QChar.isSpace).dropWhile (fun c => !QChar.isSpace c)).length < s.length := by
  cases s with
  | nil => simp at h
  | cons c cs =>
    by_cases hc : QChar.isSpace c = true
    · have h1 : (c :: cs).dropWhile QChar.isSpace = cs.dropWhile QChar.isSpace := by
        simp [List.dropWhile_cons, hc]
      rw [h1]
      have := (List.dropWhile_sublist (fun c => !QChar.isSpace c)
        (l := cs.dropWhile QChar.isSpace)).length_le
      have := (List.dropWhile_sublist QChar.isSpace (l := cs)).length_le
      simp only [List.length_cons]; omega
    · have h1 : (c :: cs).dropWhile QChar.isSpace = c :: cs := by
        simp [List.dropWhile_cons, hc]
      have h2 : (c :: cs).dropWhile (fun c => !QChar.isSpace c) =
          cs.dropWhile (fun c => !QChar.isSpace c) := by
        simp [List.dropWhile_cons, hc]
      rw [h1, h2]
      have := (List.dropWhile_sublist (fun c => !QChar.isSpace c) (l := cs)).length_le
      simp only [List.length_cons]; omega

/-- More fuel than `s.length` never changes the result of the loop. -/
theorem QString.simplifiedLoop_fuel (n m : Nat) (s : QString) (hn : s.length < n)
    (hm : s.length < m) : QString.simplifiedLoop n s = QString.simplifiedLoop m s := by
  induction n generalizing m s with
  | zero => omega
  | succ n ih =>
    cases m with
    | zero => omega
    | succ m =>
      simp only [QString.simplifiedLoop]
      split
      · rfl
      · rename_i hne
        have hlt := QString.length_simplified_rest s (by simpa using hne)
        rw [ih m _ (by omega) (by omega)]

/-- The loop, without fuel. -/
theorem QString.simplifiedLoop_eq (s : QString) :
    QString.simplifiedLoop (s.length + 1) s =
      if ((s.dropWhile QChar.isSpace).dropWhile (fun c => !QChar.isSpace c)).isEmpty then
        (s.dropWhile QChar.isSpace).takeWhile (fun c => !QChar.isSpace c)
      else
        (s.dropWhile QChar.isSpace).takeWhile (fun c => !QChar.isSpace c) ++
          QChar.Space :: QString.simplifiedLoop
            (((s.dropWhile QChar.isSpace).dropWhile (fun c => !QChar.isSpace c)).length + 1)
            ((s.dropWhile QChar.isSpace).dropWhile (fun c => !QChar.isSpace c)) := by
  conv_lhs => rw [QString.simplifiedLoop]
  split
  · rfl
  · rename_i hne
    have hlt := QString.length_simplified_rest s (by simpa using hne)
    rw [QString.simplifiedLoop_fuel (s.length) _ _ hlt (Nat.lt_succ_self _)]

/-! ### `trimmed` -/

theorem QString.trimmed_eq_self (s : QString)
    (hhead : ∀ c, s.head? = some c → QChar.isSpace c = false)
    (hlast : ∀ c, s.getLast? = some c → QChar.isSpace c = false) : s.trimmed = s := by
  unfold QString.trimmed
  have h1 : s.rdropWhile QChar.isSpace = s := by
    rw [List.rdropWhile_eq_self_iff]
    intro hl
    have := hlast _ (List.getLast?_eq_getLast s hl)
    simp [this]
  rw [h1]
  cases s with
  | nil => rfl
  | cons c cs =>
    have := hhead c rfl
    simp [List.dropWhile_cons, this]

theorem QString.trimmed_head (s : QString) (c : QChar) (h : s.trimmed.head? = some c) :
    QChar.isSpace c = false := by
  unfold QString.trimmed at h
  have := List.head?_dropWhile_not QChar.isSpace (s.rdropWhile QChar.isSpace)
  rw [h] at this
  simpa using this

theorem QString.trimmed_last (s : QString) (c : QChar) (h : s.trimmed.getLast? = some c) :
    QChar.isSpace c = false := by
  unfold QString.trimmed at h
  have hne : (s.rdropWhile QChar.isSpace).dropWhile QChar.isSpace ≠ [] := by
    intro h0; rw [h0] at h; simp at h
  have hne1 : s.rdropWhile QChar.isSpace ≠ [] := by
    intro h0; rw [h0] at hne; simp at hne
  have hsplit := List.takeWhile_append_dropWhile QChar.isSpace (s.rdropWhile QChar.isSpace)
  have hl : (s.rdropWhile QChar.isSpace).getLast? = some c := by
    rw [← hsplit, List.getLast?_append_of_ne_nil _ hne]
    exact h
  have hnot := List.rdropWhile_last_not QChar.isSpace s hne1
  rw [List.getLast?_eq_getLast _ hne1] at hl
  simp only [Option.some.injEq] at hl
  rw [hl] at hnot
  simpa using hnot

theorem QString.trimmed_trimmed (s : QString) : s.trimmed.trimmed = s.trimmed :=
  QString.trimmed_eq_self _ (QString.trimmed_head s) (QString.trimmed_last s)

theorem QString.not_mem_replace (s before after : QString) (x : QChar) (hs : x ∉ s)
    (ha : x ∉ after) : x ∉ s.replace before after :=
  fun h => (QString.mem_replace _ _ _ _ h).elim hs ha

theorem QString.not_mem_simplified (s : QString) (x : QChar) (hs : x ∉ s)
    (hx : x ≠ QChar.Space) : x ∉ s.simplified :=
  fun h => (QString.mem_simplified _ _ h).elim hs hx

/-! ## The title of a web page -/

/-- C1. `getTitleForUrl` gives the empty string for a failed fetch: when the downloaded
HTML is empty, and when it holds no `<title>` followed somewhere by `</title>` (so the
pattern has no match), provided `unescapeHtml` maps the empty string to itself. The
function is total: no error value exists. -/
theorem getTitleForUrl_failed_fetch (env : Env) (url : QUrl)
    (hun : env.unescapeHtml [] = [])
    (hfail : env.downloadUrl url = [] ∨
      ¬ ∃ a b c, env.downloadUrl url = a ++ titleOpen ++ b ++ titleClose ++ c) :
    LinkDialog.getTitleForUrl env url = [] := by
  unfold LinkDialog.getTitleForUrl LinkDialog.titleOfHtml
  split
  · rfl
  · rename_i hne
    have hnone : titleRegexMatch (env.downloadUrl url) = none := by
      rw [titleRegexMatch_eq_none]
      rcases hfail with h | h
      · rw [h] at hne; simp at hne
      · exact h
    simp only [titleCaptured, hnone, Option.getD_none, hun]
    decide

theorem getTitleForUrl_failed_fetch_witness :
    sampleEnv.unescapeHtml [] = [] ∧
      titleRegexMatch (sampleEnv.downloadUrl ⟨lit "http://b"⟩) = none ∧
      LinkDialog.getTitleForUrl sampleEnv ⟨lit "http://b"⟩ = [] :=
  ⟨by decide, by decide,
    getTitleForUrl_failed_fetch sampleEnv ⟨lit "http://b"⟩ (by decide)
      (Or.inr ((titleRegexMatch_eq_none _).1 (by decide)))⟩

/-- C6. When the HTML holds `<title>` with `</title>` somewhere after it, the captured
group is the text between the first `<title>` (no earlier offset starts one) and the
nearest `</title>` behind it (no earlier offset behind the opening tag starts one),
whatever characters lie between; and the captured text does not contain `</title>`. -/
theorem titleCaptured_first_shortest (html : QString)
    (h : ∃ a b c, html = a ++ titleOpen ++ b ++ titleClose ++ c) :
    ∃ a c, html = a ++ titleOpen ++ titleCaptured html ++ titleClose ++ c ∧
      (∀ k, k < a.length → ¬ titleOpen <+: html.drop k) ∧
      (∀ k, k < (titleCaptured html).length →
        ¬ titleClose <+: (titleCaptured html ++ titleClose ++ c).drop k) ∧
      ¬ titleClose <:+: titleCaptured html := by
  cases hm : titleRegexMatch html with
  | none => exact absurd h ((titleRegexMatch_eq_none html).1 hm)
  | some g =>
    obtain ⟨a, c, hs, hfirst, hmin⟩ := titleRegexMatch_eq_some html g hm
    have hg : titleCaptured html = g := by simp [titleCaptured, hm]
    rw [hg]
    exact ⟨a, c, hs, hfirst, hmin, not_infix_of_first (by decide) hmin⟩

theorem titleCaptured_first_shortest_witness :
    titleCaptured (lit "<html><title>A [page]\n</title><title>B</title>") = lit "A [page]\n" ∧
      ∃ a c, lit "<html><title>A [page]\n</title><title>B</title>" =
          a ++ titleOpen ++ titleCaptured (lit "<html><title>A [page]\n</title><title>B</title>")
            ++ titleClose ++ c ∧
        (∀ k, k < a.length →
          ¬ titleOpen <+: (lit "<html><title>A [page]\n</title><title>B</title>").drop k) ∧
        (∀ k, k < (titleCaptured (lit "<html><title>A [page]\n</title><title>B</title>")).length →
          ¬ titleClose <+:
            (titleCaptured (lit "<html><title>A [page]\n</title><title>B</title>")
              ++ titleClose ++ c).drop k) ∧
        ¬ titleClose <:+: titleCaptured (lit "<html><title>A [page]\n</title><title>B</title>") :=
  ⟨by decide,
    titleCaptured_first_shortest _
      ⟨lit "<html>", lit "A [page]\n", lit "<title>B</title>", by decide⟩⟩

/-- C7. Whatever the downloaded HTML and whatever `unescapeHtml` returns, the title
returned by `getTitleForUrl` contains none of the characters `[`, `]`, `<`, `>`. -/
theorem getTitleForUrl_no_brackets (env : Env) (url : QUrl) :
    ¬ '['.toNat ∈ LinkDialog.getTitleForUrl env url ∧
      ¬ ']'.toNat ∈ LinkDialog.getTitleForUrl env url ∧
      ¬ '<'.toNat ∈ LinkDialog.getTitleForUrl env url ∧
      ¬ '>'.toNat ∈ LinkDialog.getTitleForUrl env url := by
  unfold LinkDialog.getTitleForUrl LinkDialog.titleOfHtml
  split
  · simp
  · simp only
    generalize env.unescapeHtml (titleCaptured (env.downloadUrl url)) = t0
    have e1 : lit "[" = ['['.toNat] := by decide
    have e2 : lit "]" = [']'.toNat] := by decide
    have e3 : lit "<" = ['<'.toNat] := by decide
    have e4 : lit ">" = ['>'.toNat] := by decide
    have a1 : '['.toNat ∉ t0.replace (lit "[") (lit "(") := by
      rw [e1]; exact QString.not_mem_replace_single _ _ _ (by decide)
    have b1 := QString.not_mem_replace _ (lit "]") (lit ")") _ a1 (by decide)
    have b2 : ']'.toNat ∉ (t0.replace (lit "[") (lit "(")).replace (lit "]") (lit ")") := by
      rw [e2]; exact QString.not_mem_replace_single _ _ _ (by decide)
    have c1 := QString.not_mem_replace _ (lit "<") (lit "(") _ b1 (by decide)
    have c2 := QString.not_mem_replace _ (lit "<") (lit "(") _ b2 (by decide)
    have c3 : '<'.toNat ∉ ((t0.replace (lit "[") (lit "(")).replace (lit "]")
        (lit ")")).replace (lit "<") (lit "(") := by
      rw [e3]; exact QString.not_mem_replace_single _ _ _ (by decide)
    have d1 := QString.not_mem_replace _ (lit ">") (lit ")") _ c1 (by decide)
    have d2 := QString.not_mem_replace _ (lit ">") (lit ")") _ c2 (by decide)
    have d3 := QString.not_mem_replace _ (lit ">") (lit ")") _ c3 (by decide)
    have d4 : '>'.toNat ∉ (((t0.replace (lit "[") (lit "(")).replace (lit "]")
        (lit ")")).replace (lit "<") (lit "(")).replace (lit ">") (lit ")") := by
      rw [e4]; exact QString.not_mem_replace_single _ _ _ (by decide)
    have step : ∀ (x : QChar) (s : QString), x ∉ s → x ∉ lit "-" → x ∉ lit "&" →
        x ∉ lit "'" → x ≠ QChar.Space →
        x ∉ ((((s.replace (lit "&#8211;") (lit "-")).replace (lit "&#124;") (lit "-")).replace
          (lit "&#038;") (lit "&")).replace (lit "&#39;") (lit "'")).simplified := by
      intro x s hs h1 h2 h3 h4
      exact QString.not_mem_simplified _ _
        (QString.not_mem_replace _ _ _ _
          (QString.not_mem_replace _ _ _ _
            (QString.not_mem_replace _ _ _ _
              (QString.not_mem_replace _ _ _ _ hs h1) h1) h2) h3) h4
    exact ⟨step _ _ d1 (by decide) (by decide) (by decide) (by decide),
      step _ _ d2 (by decide) (by decide) (by decide) (by decide),
      step _ _ d3 (by decide) (by decide) (by decide) (by decide),
      step _ _ d4 (by decide) (by decide) (by decide) (by decide)⟩

/-! ## The URL field -/

theorem getURL_eq (d : LinkDialog) :
    d.getURL =
      if d.urlEdit.trimmed = [] then []
      else if lit "://" <:+: d.urlEdit.trimmed then d.urlEdit.trimmed
      else lit "http://" ++ d.urlEdit.trimmed := by
  unfold LinkDialog.getURL
  by_cases h0 : d.urlEdit.trimmed = []
  · simp [h0]
  · by_cases h1 : lit "://" <:+: d.urlEdit.trimmed
    · have hc := (QString.contains_iff _ _).2 h1
      simp [h0, h1, hc]
    · have hc : (d.urlEdit.trimmed).contains (lit "://") = false :=
        Bool.eq_false_iff.2 (fun h => h1 ((QString.contains_iff _ _).1 h))
      simp [h0, h1, hc]

theorem trimmed_http_append (s : QString) (hs : s.trimmed ≠ []) :
    (lit "http://" ++ s.trimmed).trimmed = lit "http://" ++ s.trimmed := by
  apply QString.trimmed_eq_self
  · intro c hc
    have : c = 'h'.toNat := by
      have h1 : (lit "http://" ++ s.trimmed).head? = some 'h'.toNat := by
        rw [show lit "http://" = 'h'.toNat :: lit "ttp://" by decide]; rfl
      rw [h1] at hc
      exact (Option.some.inj hc).symm
    rw [this]; decide
  · intro c hc
    rw [List.getLast?_append_of_ne_nil _ hs] at hc
    exact QString.trimmed_last s c hc

/-- C8. With `s` the text of the URL field trimmed of leading and trailing white space,
`getURL` returns the empty string if `s` is empty, `s` if `s` contains `://`, and
`http://` followed by `s` otherwise. So the result is empty or contains `://`, and a
dialog whose URL field holds the result returns it unchanged. -/
theorem getURL_normalises (d : LinkDialog) :
    d.getURL =
        (if d.urlEdit.trimmed = [] then []
        else if lit "://" <:+: d.urlEdit.trimmed then d.urlEdit.trimmed
        else lit "http://" ++ d.urlEdit.trimmed) ∧
      (d.getURL = [] ∨ lit "://" <:+: d.getURL) ∧
      LinkDialog.getURL { d with urlEdit := d.getURL } = d.getURL := by
  refine ⟨getURL_eq d, ?_, ?_⟩
  · rw [getURL_eq]
    by_cases h0 : d.urlEdit.trimmed = []
    · simp [h0]
    · by_cases h1 : lit "://" <:+: d.urlEdit.trimmed
      · simp [h0, h1]
      · simp only [h0, h1, if_false]
        exact Or.inr ⟨lit "http", d.urlEdit.trimmed, by
          rw [show lit "http://" = lit "http" ++ lit "://" by decide]⟩
  · rw [getURL_eq { d with urlEdit := d.getURL }, getURL_eq d]
    by_cases h0 : d.urlEdit.trimmed = []
    · simp only [h0, if_true]
      decide
    · by_cases h1 : lit "://" <:+: d.urlEdit.trimmed
      · simp only [h0, h1, if_true, if_false, QString.trimmed_trimmed]
      · simp only [h0, h1, if_false, trimmed_http_append _ h0]
        have h2 : lit "http://" ++ d.urlEdit.trimmed ≠ [] := by
          rw [show lit "http://" = 'h'.toNat :: lit "ttp://" by decide]; simp
        have h3 : lit "://" <:+: lit "http://" ++ d.urlEdit.trimmed :=
          ⟨lit "http", d.urlEdit.trimmed, by
            rw [show lit "http://" = lit "http" ++ lit "://" by decide]⟩
        simp only [h2, h3, if_true, if_false]

/-- C2. `on_urlEdit_textChanged` touches nothing but the link-name field, and that only to
fill it in: afterwards the field holds the fetched title if the text is a valid URL whose
scheme starts with `http`, the field was empty and the title is not empty; in every other
case it is as before. A non-empty link name is therefore never overwritten. -/
theorem on_urlEdit_textChanged_autofill (env : Env) (d : LinkDialog) (text : QString) :
    LinkDialog.on_urlEdit_textChanged env d text =
        { d with nameLineEdit :=
            if env.urlIsValid ⟨text⟩ = true ∧ lit "http" <+: env.urlScheme ⟨text⟩ ∧
                d.nameLineEdit = [] ∧ LinkDialog.getTitleForUrl env ⟨text⟩ ≠ [] then
              LinkDialog.getTitleForUrl env ⟨text⟩
            else d.nameLineEdit } ∧
      (d.nameLineEdit ≠ [] →
        (LinkDialog.on_urlEdit_textChanged env d text).nameLineEdit = d.nameLineEdit) := by
  have hpre : ∀ sch : QString, sch.startsWith (lit "http") = true ↔ lit "http" <+: sch :=
    fun sch => isPrefixOf_iff _ _
  have hemp : ∀ t : QString, t.isEmpty = true ↔ t = [] := fun t => List.isEmpty_iff
  rcases d with ⟨items, cur, first, urlText, name, focus, settings⟩
  unfold LinkDialog.on_urlEdit_textChanged
  simp only
  by_cases hv : env.urlIsValid ⟨text⟩ = true
  · by_cases hs : lit "http" <+: env.urlScheme ⟨text⟩
    · by_cases hn : name = []
      · by_cases ht : LinkDialog.getTitleForUrl env ⟨text⟩ = []
        · simp [hv, (hpre _).2 hs, hn, ht]
        · have hte : (LinkDialog.getTitleForUrl env ⟨text⟩).isEmpty = false :=
            Bool.eq_false_iff.2 (fun h => ht ((hemp _).1 h))
          simp [hv, (hpre _).2 hs, hs, hn, ht, hte]
      · have hne : name.isEmpty = false :=
          Bool.eq_false_iff.2 (fun h => hn ((hemp _).1 h))
        simp [hv, hn, hne]
    · have hsf : (env.urlScheme ⟨text⟩).startsWith (lit "http") = false :=
        Bool.eq_false_iff.2 (fun h => hs ((hpre _).1 h))
      simp [hv, hs, hsf]
  · simp [hv]

/-! ## The note list -/

theorem indexOfFrom_neg_iff (t : QString) (l : List QString) (i : Int) (hi : 0 ≤ i) :
    indexOfFrom t l i < 0 ↔ t ∉ l := by
  induction l generalizing i with
  | nil => simp [indexOfFrom]
  | cons x xs ih =>
    by_cases hx : x = t
    · subst hx
      simp only [indexOfFrom, if_true, List.mem_cons, true_or, not_true_eq_false, iff_false]
      omega
    · have hx1 : ¬ t = x := fun h => hx h.symm
      simp only [indexOfFrom, hx, if_false, List.mem_cons, hx1, false_or]
      exact ih (i + 1) (by omega)

theorem indexOf_neg_iff (l : List QString) (t : QString) : indexOf l t < 0 ↔ t ∉ l :=
  indexOfFrom_neg_iff t l 0 (le_refl 0)

theorem LinkDialog.searchLoop_items (names : List QString) (i : Int)
    (items : List QListWidgetItem) (first : Int) :
    (LinkDialog.searchLoop names i items first).1 =
      items.map (fun item => { item with hidden := decide (item.text ∉ names) }) := by
  induction items generalizing i first with
  | nil => rfl
  | cons item rest ih =>
    by_cases h : item.text ∈ names
    · have hi : ¬ indexOf names item.text < 0 := fun h1 => (indexOf_neg_iff _ _).1 h1 h
      simp [LinkDialog.searchLoop, hi, ih, h]
    · have hi : indexOf names item.text < 0 := (indexOf_neg_iff _ _).2 h
      simp [LinkDialog.searchLoop, hi, ih, h]

theorem LinkDialog.searchLoop_first_of_nonneg (names : List QString) (i : Int)
    (items : List QListWidgetItem) (first : Int) (h : 0 ≤ first) :
    (LinkDialog.searchLoop names i items first).2 = first := by
  induction items generalizing i with
  | nil => rfl
  | cons item rest ih =>
    have hf : ¬ first < 0 := by omega
    unfold LinkDialog.searchLoop
    split
    · exact ih _
    · simp only [hf, if_false]
      exact ih _

theorem LinkDialog.searchLoop_first (names : List QString) (i : Nat)
    (items : List QListWidgetItem) :
    (∃ k : Nat, (LinkDialog.searchLoop names i items (-1)).2 = (i : Int) + k ∧
        (∃ item, (LinkDialog.searchLoop names i items (-1)).1[k]? = some item ∧
          item.hidden = false) ∧
        ∀ j, j < k → ∀ item, (LinkDialog.searchLoop names i items (-1)).1[j]? = some item →
          item.hidden = true) ∨
      ((LinkDialog.searchLoop names i items (-1)).2 = -1 ∧
        ∀ item ∈ (LinkDialog.searchLoop names i items (-1)).1, item.hidden = true) := by
  induction items generalizing i with
  | nil => exact Or.inr ⟨rfl, by simp [LinkDialog.searchLoop]⟩
  | cons item rest ih =>
    by_cases h : indexOf names item.text < 0
    · have e1 : (LinkDialog.searchLoop names i (item :: rest) (-1)).1 =
          { item with hidden := true } :: (LinkDialog.searchLoop names (i + 1) rest (-1)).1 := by
        simp [LinkDialog.searchLoop, h]
      have e2 : (LinkDialog.searchLoop names i (item :: rest) (-1)).2 =
          (LinkDialog.searchLoop names (i + 1) rest (-1)).2 := by
        simp [LinkDialog.searchLoop, h]
      rw [e1, e2]
      rcases ih (i + 1) with ⟨k, hk, ⟨it, hit, hvis⟩, hmin⟩ | ⟨hnone, hall⟩
      · refine Or.inl ⟨k + 1, ?_, ⟨it, by simpa using hit, hvis⟩, ?_⟩
        · have hk1 : (LinkDialog.searchLoop names ((i : Int) + 1) rest (-1)).2 =
              ((i + 1 : Nat) : Int) + k := by exact_mod_cast hk
          rw [hk1]; push_cast; ring
        · intro j hj it1 hit1
          cases j with
          | zero =>
            simp only [List.getElem?_cons_zero, Option.some.injEq] at hit1
            rw [← hit1]
          | succ j =>
            simp only [List.getElem?_cons_succ] at hit1
            exact hmin j (by omega) it1 hit1
      · refine Or.inr ⟨?_, ?_⟩
        · have : (LinkDialog.searchLoop names ((i : Int) + 1) rest (-1)).2 = -1 := by
            exact_mod_cast hnone
          exact this
        · intro it1 hit1
          simp only [List.mem_cons] at hit1
          rcases hit1 with rfl | hit1
          · rfl
          · exact hall it1 (by exact_mod_cast hit1)
    · have e1 : (LinkDialog.searchLoop names i (item :: rest) (-1)).1 =
          { item with hidden := false } ::
            (LinkDialog.searchLoop names (i + 1) rest i).1 := by
        simp [LinkDialog.searchLoop, h]
      have e2 : (LinkDialog.searchLoop names i (item :: rest) (-1)).2 = i := by
        simp only [LinkDialog.searchLoop, h, if_false]
        exact LinkDialog.searchLoop_first_of_nonneg _ _ _ _ (by simp)
      rw [e1, e2]
      exact Or.inl ⟨0, by simp, ⟨{ item with hidden := false }, by simp, rfl⟩,
        by intro j hj; omega⟩

theorem LinkDialog.showAll_eq (items : List QListWidgetItem) :
    LinkDialog.showAll items = items.map (fun item => { item with hidden := false }) := by
  induction items with
  | nil => rfl
  | cons item rest ih => simp [LinkDialog.showAll, ih]

theorem LinkDialog.search_items (env : Env) (d : LinkDialog) (q : QString) :
    (LinkDialog.on_searchLineEdit_textChanged env d q).items =
      d.items.map (fun item =>
        { item with hidden := decide (2 ≤ q.length ∧ item.text ∉ env.searchAsNameList q) }) := by
  unfold LinkDialog.on_searchLineEdit_textChanged
  by_cases hq : 2 ≤ q.length
  · simp [hq, LinkDialog.searchLoop_items]
  · have hq1 : ¬ q.length ≥ 2 := hq
    simp [hq, LinkDialog.showAll_eq]

theorem LinkDialog.search_tracks (env : Env) (d : LinkDialog) (q : QString)
    (h : d.items ≠ [] ∨ 2 ≤ q.length) :
    TracksFirstVisible (LinkDialog.on_searchLineEdit_textChanged env d q) := by
  by_cases hq : 2 ≤ q.length
  · have e : LinkDialog.on_searchLineEdit_textChanged env d q =
        { d with items := (LinkDialog.searchLoop (env.searchAsNameList q) 0 d.items (-1)).1,
                 firstVisibleNoteListRow :=
                  (LinkDialog.searchLoop (env.searchAsNameList q) 0 d.items (-1)).2 } := by
      simp [LinkDialog.on_searchLineEdit_textChanged, hq]
    rw [e]
    have := LinkDialog.searchLoop_first (env.searchAsNameList q) 0 d.items
    simpa [TracksFirstVisible] using this
  · have hne : d.items ≠ [] := h.resolve_right hq
    have hq1 : ¬ q.length ≥ 2 := hq
    have e : LinkDialog.on_searchLineEdit_textChanged env d q =
        { d with items := d.items.map (fun item => { item with hidden := false }),
                 firstVisibleNoteListRow := 0 } := by
      simp [LinkDialog.on_searchLineEdit_textChanged, hq1, LinkDialog.showAll_eq]
    rw [e]
    obtain ⟨item, rest, hd⟩ := List.exists_cons_of_ne_nil hne
    refine Or.inl ⟨0, by simp, ⟨{ item with hidden := false }, by simp [hd], rfl⟩, ?_⟩
    intro j hj; omega

/-- C3. `on_searchLineEdit_textChanged` keeps the rows, their order, their texts and their
note ids, and sets the hidden flags, whatever they were: afterwards a row is hidden if and
only if the search text has at least 2 characters and the text of the row is not in the list
`Note::searchAsNameList` returns for it. A shorter search text therefore shows every row. -/
theorem on_searchLineEdit_textChanged_filters (env : Env) (d : LinkDialog) (q : QString) :
    (LinkDialog.on_searchLineEdit_textChanged env d q).items.length = d.items.length ∧
      (LinkDialog.on_searchLineEdit_textChanged env d q).items.map
          (fun item => (item.text, item.noteId)) =
        d.items.map (fun item => (item.text, item.noteId)) ∧
      (∀ item ∈ (LinkDialog.on_searchLineEdit_textChanged env d q).items,
        (item.hidden = true ↔ 2 ≤ q.length ∧ item.text ∉ env.searchAsNameList q)) ∧
      (q.length < 2 →
        ∀ item ∈ (LinkDialog.on_searchLineEdit_textChanged env d q).items,
          item.hidden = false) := by
  rw [LinkDialog.search_items]
  refine ⟨by simp, ?_, ?_, ?_⟩
  · rw [List.map_map]
    rfl
  · intro item hitem
    obtain ⟨a, _, rfl⟩ := List.mem_map.1 hitem
    simp
  · intro hq item hitem
    obtain ⟨a, _, rfl⟩ := List.mem_map.1 hitem
    have : ¬ 2 ≤ q.length := by omega
    simp [this]

/-- C9, as the code has it. After `on_searchLineEdit_textChanged(q)` the field
`firstVisibleNoteListRow` is the smallest index of a row that is not hidden, or `-1` when
every row is hidden, unless the list is empty and `q` has fewer than 2 characters: then
the field is `0`. -/
theorem firstVisibleNoteListRow_after_search (env : Env) (d : LinkDialog) (q : QString) :
    (¬ (d.items = [] ∧ q.length < 2) →
        TracksFirstVisible (LinkDialog.on_searchLineEdit_textChanged env d q)) ∧
      (d.items = [] ∧ q.length < 2 →
        (LinkDialog.on_searchLineEdit_textChanged env d q).firstVisibleNoteListRow = 0) := by
  constructor
  · intro h
    apply LinkDialog.search_tracks
    by_cases hne : d.items = []
    · exact Or.inr (Nat.le_of_not_lt (fun h2 => h ⟨hne, h2⟩))
    · exact Or.inl hne
  · rintro ⟨_, hq⟩
    have hq1 : ¬ q.length ≥ 2 := by omega
    simp [LinkDialog.on_searchLineEdit_textChanged, hq1]

/-- C9, as the claim has it, fails for a dialog without notes and the empty search text:
no row is visible, yet the field is `0`, not `-1`. -/
theorem firstVisibleNoteListRow_empty_list :
    (LinkDialog.on_searchLineEdit_textChanged sampleEmptyEnv sampleEmptyDialog []).items = [] ∧
      (LinkDialog.on_searchLineEdit_textChanged sampleEmptyEnv sampleEmptyDialog
        []).firstVisibleNoteListRow = 0 ∧
      ¬ TracksFirstVisible
        (LinkDialog.on_searchLineEdit_textChanged sampleEmptyEnv sampleEmptyDialog []) := by
  refine ⟨by decide, by decide, ?_⟩
  have e : LinkDialog.on_searchLineEdit_textChanged sampleEmptyEnv sampleEmptyDialog [] =
      { items := [], currentRow := -1, firstVisibleNoteListRow := 0, urlEdit := [],
        nameLineEdit := [], focus := Widget.urlEdit, settings := ⟨[], []⟩ } := by decide
  rw [e]
  simp [TracksFirstVisible]

/-! ## Keys in the search field -/

theorem LinkDialog.eventFilter_listKey (env : Env) (d : LinkDialog) (event : QEvent)
    (h : event.isListKey) :
    LinkDialog.eventFilter env d Widget.searchLineEdit event =
      (true,
        { (match d.currentItem with
            | some item =>
              if item.hidden && decide (d.firstVisibleNoteListRow ≥ 0) then
                d.setCurrentRow d.firstVisibleNoteListRow
              else d
            | none => d) with focus := Widget.notesListWidget }) := by
  obtain ⟨h1, h2⟩ := h
  simp [LinkDialog.eventFilter, h1, h2]

theorem LinkDialog.eventFilter_not_listKey (env : Env) (d : LinkDialog) (event : QEvent)
    (h : ¬ event.isListKey) :
    LinkDialog.eventFilter env d Widget.searchLineEdit event = (false, d) := by
  unfold QEvent.isListKey at h
  unfold LinkDialog.eventFilter
  by_cases h1 : event.type = QEvent.KeyPress
  · have h2 : ¬ (event.key = Key_Down ∨ event.key = Key_Tab) := fun h2 => h ⟨h1, h2⟩
    simp [h1, h2]
  · simp [h1]

theorem LinkDialog.currentItem_eq_some (d : LinkDialog) (item : QListWidgetItem)
    (h : d.currentItem = some item) :
    0 ≤ d.currentRow ∧ d.items[d.currentRow.toNat]? = some item := by
  unfold LinkDialog.currentItem at h
  by_cases h0 : 0 ≤ d.currentRow
  · simp only [h0, if_true] at h
    exact ⟨h0, h⟩
  · simp [h0] at h

theorem LinkDialog.setCurrentRow_of_getElem (d : LinkDialog) (row : Int)
    (item : QListWidgetItem) (h0 : 0 ≤ row) (h : d.items[row.toNat]? = some item) :
    (d.setCurrentRow row).currentRow = row ∧ (d.setCurrentRow row).currentItem = some item ∧
      (d.setCurrentRow row).items = d.items ∧
      (d.setCurrentRow row).firstVisibleNoteListRow = d.firstVisibleNoteListRow := by
  have hlt : row.toNat < d.items.length := by
    by_contra hge
    rw [List.getElem?_eq_none (by omega)] at h
    exact Option.noConfusion h
  have hin : 0 ≤ row ∧ row < d.count := by
    refine ⟨h0, ?_⟩
    unfold LinkDialog.count
    omega
  have e : (d.setCurrentRow row).currentRow = row := by
    simp [LinkDialog.setCurrentRow, hin]
  refine ⟨e, ?_, rfl, rfl⟩
  unfold LinkDialog.currentItem
  rw [e]
  simp only [h0, if_true]
  exact h

/-- C4. For an event sent to the search line edit, in a state the dialog can be in:
`eventFilter` returns true exactly when the event is a `KeyPress` of `Key_Down` or
`Key_Tab`; when such a key is pressed while there is a current item, it is hidden and
`firstVisibleNoteListRow` is not negative, the current row becomes
`firstVisibleNoteListRow`, which differs from the row before; in every other case the
current row stays as it is. -/
theorem eventFilter_searchLineEdit (env : Env) (d : LinkDialog) (event : QEvent)
    (hwf : WellFormed d) :
    ((LinkDialog.eventFilter env d Widget.searchLineEdit event).1 = true ↔
        event.isListKey) ∧
      (event.isListKey ∧ (∃ item, d.currentItem = some item ∧ item.hidden = true) ∧
          0 ≤ d.firstVisibleNoteListRow →
        (LinkDialog.eventFilter env d Widget.searchLineEdit event).2.currentRow =
            d.firstVisibleNoteListRow ∧
          (LinkDialog.eventFilter env d Widget.searchLineEdit event).2.currentRow ≠
            d.currentRow) ∧
      (¬ (event.isListKey ∧ (∃ item, d.currentItem = some item ∧ item.hidden = true) ∧
          0 ≤ d.firstVisibleNoteListRow) →
        (LinkDialog.eventFilter env d Widget.searchLineEdit event).2.currentRow =
          d.currentRow) := by
  by_cases hk : event.isListKey
  · rw [LinkDialog.eventFilter_listKey env d event hk]
    refine ⟨by simp [hk], ?_, ?_⟩
    · rintro ⟨_, ⟨item, hitem, hhid⟩, hfirst⟩
      obtain ⟨hcur0, hcur⟩ := LinkDialog.currentItem_eq_some d item hitem
      have hne : d.items ≠ [] := by
        intro h0; rw [h0] at hcur; simp at hcur
      have hw := hwf hfirst hne
      obtain ⟨item2, hitem2, hvis⟩ := Option.map_eq_some'.1 hw
      obtain ⟨hrow, -⟩ := LinkDialog.setCurrentRow_of_getElem d _ item2 hfirst hitem2
      have hge : d.firstVisibleNoteListRow ≥ 0 := hfirst
      simp only [hitem, hhid, hge, decide_True, Bool.and_self, if_true, hrow, true_and]
      intro heq
      rw [heq, hcur] at hitem2
      rw [Option.some.inj hitem2] at hhid
      rw [hhid] at hvis
      exact Bool.noConfusion hvis
    · intro hnot
      cases hci : d.currentItem with
      | none => rfl
      | some item =>
        by_cases hc : item.hidden = true ∧ 0 ≤ d.firstVisibleNoteListRow
        · exact absurd ⟨hk, ⟨item, hci, hc.1⟩, hc.2⟩ hnot
        · have hb : (item.hidden && decide (d.firstVisibleNoteListRow ≥ 0)) = false := by
            apply Bool.eq_false_iff.2
            intro hb
            simp only [Bool.and_eq_true, decide_eq_true_eq] at hb
            exact hc hb
          simp only [hb, Bool.false_eq_true, if_false]
  · rw [LinkDialog.eventFilter_not_listKey env d event hk]
    refine ⟨by simp [hk], fun h => absurd h.1 hk, fun _ => rfl⟩

theorem eventFilter_searchLineEdit_witness :
    WellFormed (LinkDialog.on_searchLineEdit_textChanged sampleEnv sampleDialog (lit "be")) ∧
      (LinkDialog.on_searchLineEdit_textChanged sampleEnv sampleDialog (lit "be")).currentRow
        = 0 ∧
      (LinkDialog.eventFilter sampleEnv
        (LinkDialog.on_searchLineEdit_textChanged sampleEnv sampleDialog (lit "be"))
        Widget.searchLineEdit sampleKeyDown).2.currentRow = 1 ∧
      ((LinkDialog.eventFilter sampleEnv
        (LinkDialog.on_searchLineEdit_textChanged sampleEnv sampleDialog (lit "be"))
        Widget.searchLineEdit sampleKeyDown).1 = true ↔ sampleKeyDown.isListKey) :=
  ⟨by decide, by decide, by decide,
    (eventFilter_searchLineEdit sampleEnv
      (LinkDialog.on_searchLineEdit_textChanged sampleEnv sampleDialog (lit "be"))
      sampleKeyDown (by decide)).1⟩

/-- C10. Take a note list with a current item and a search text of at least 2 characters
that matches at least one row. After `on_searchLineEdit_textChanged` and then a `KeyPress`
of `Key_Down` or `Key_Tab` handled by `eventFilter` on the search line edit, the list has
a current item and it is not hidden. -/
theorem keyboard_navigation_lands_on_visible (env : Env) (d : LinkDialog) (q : QString)
    (event : QEvent) (hcur : ∃ item, d.currentItem = some item) (hq : 2 ≤ q.length)
    (hmatch : ∃ item ∈ d.items, item.text ∈ env.searchAsNameList q)
    (hkey : event.isListKey) :
    ∃ item,
      (LinkDialog.eventFilter env (LinkDialog.on_searchLineEdit_textChanged env d q)
        Widget.searchLineEdit event).2.currentItem = some item ∧ item.hidden = false := by
  have hitems := LinkDialog.search_items env d q
  have hrow : (LinkDialog.on_searchLineEdit_textChanged env d q).currentRow = d.currentRow := by
    unfold LinkDialog.on_searchLineEdit_textChanged; split <;> rfl
  have htr := LinkDialog.search_tracks env d q (Or.inr hq)
  generalize LinkDialog.on_searchLineEdit_textChanged env d q = d1 at hitems hrow htr
  -- the current item survives the search
  obtain ⟨item0, hitem0⟩ := hcur
  obtain ⟨hcur0, hget0⟩ := LinkDialog.currentItem_eq_some d item0 hitem0
  have hcur1 : ∃ item1, d1.currentItem = some item1 := by
    refine ⟨{ item0 with
      hidden := decide (2 ≤ q.length ∧ item0.text ∉ env.searchAsNameList q) }, ?_⟩
    unfold LinkDialog.currentItem
    rw [hrow, hitems]
    simp [hcur0, hget0]
  obtain ⟨item1, hitem1⟩ := hcur1
  -- some row is visible after the search
  have hfirst : ∃ k : Nat, d1.firstVisibleNoteListRow = k ∧
      ∃ item, d1.items[k]? = some item ∧ item.hidden = false := by
    rcases htr with ⟨k, hk, hv, _⟩ | ⟨_, hall⟩
    · exact ⟨k, hk, hv⟩
    · obtain ⟨a, ha, hin⟩ := hmatch
      have hmem : { a with
          hidden := decide (2 ≤ q.length ∧ a.text ∉ env.searchAsNameList q) } ∈ d1.items := by
        rw [hitems]; exact List.mem_map.2 ⟨a, ha, rfl⟩
      have := hall _ hmem
      simp [hin] at this
  obtain ⟨k, hk, item2, hitem2, hvis2⟩ := hfirst
  rw [LinkDialog.eventFilter_listKey env d1 event hkey]
  simp only [hitem1]
  have hge : d1.firstVisibleNoteListRow ≥ 0 := by rw [hk]; exact Int.natCast_nonneg k
  by_cases hh : item1.hidden = true
  · have hk2 : d1.items[d1.firstVisibleNoteListRow.toNat]? = some item2 := by
      rw [hk]; simpa using hitem2
    obtain ⟨-, hci, -, -⟩ := LinkDialog.setCurrentRow_of_getElem d1 _ item2 hge hk2
    refine ⟨item2, ?_, hvis2⟩
    simp only [hh, hge, decide_True, Bool.and_self, if_true]
    exact hci
  · have hf : item1.hidden = false := by simpa using hh
    refine ⟨item1, ?_, hf⟩
    simp only [hf, Bool.false_and, Bool.false_eq_true, if_false]
    exact hitem1

theorem keyboard_navigation_lands_on_visible_witness :
    (∃ item, sampleDialog.currentItem = some item) ∧ 2 ≤ (lit "be").length ∧
      (∃ item ∈ sampleDialog.items, item.text ∈ sampleEnv.searchAsNameList (lit "be")) ∧
      sampleKeyDown.isListKey ∧
      ∃ item,
        (LinkDialog.eventFilter sampleEnv
          (LinkDialog.on_searchLineEdit_textChanged sampleEnv sampleDialog (lit "be"))
          Widget.searchLineEdit sampleKeyDown).2.currentItem = some item ∧
        item.hidden = false :=
  ⟨⟨_, rfl⟩, by decide, ⟨⟨lit "beta", 2, false⟩, by decide, by decide⟩, by decide,
    keyboard_navigation_lands_on_visible sampleEnv sampleDialog (lit "be") sampleKeyDown
      ⟨_, rfl⟩ (by decide) ⟨⟨lit "beta", 2, false⟩, by decide, by decide⟩ (by decide)⟩

/-! ## The invariant of `firstVisibleNoteListRow` -/

theorem WellFormed.of_same_rows {d d1 : LinkDialog} (h : WellFormed d)
    (hitems : d1.items = d.items)
    (hfirst : d1.firstVisibleNoteListRow = d.firstVisibleNoteListRow) : WellFormed d1 := by
  unfold WellFormed at *
  rw [hitems, hfirst]
  exact h

theorem LinkDialog.on_urlEdit_textChanged_frame (env : Env) (d : LinkDialog) (text : QString) :
    ∃ name, LinkDialog.on_urlEdit_textChanged env d text = { d with nameLineEdit := name } := by
  unfold LinkDialog.on_urlEdit_textChanged
  simp only
  split
  · exact ⟨d.nameLineEdit, rfl⟩
  · split
    · split
      · exact ⟨_, rfl⟩
      · exact ⟨d.nameLineEdit, rfl⟩
    · exact ⟨d.nameLineEdit, rfl⟩

theorem LinkDialog.setUrlEditText_frame (env : Env) (d : LinkDialog) (text : QString) :
    ∃ name, LinkDialog.setUrlEditText env d text =
      { d with urlEdit := text, nameLineEdit := name } := by
  unfold LinkDialog.setUrlEditText
  split
  · rename_i h
    refine ⟨d.nameLineEdit, ?_⟩
    rw [← h]
  · obtain ⟨name, hname⟩ := LinkDialog.on_urlEdit_textChanged_frame env
      { d with urlEdit := text } text
    exact ⟨name, hname⟩

theorem LinkDialog.noteItems_head (notes : List (QString × Int))
    (h : LinkDialog.noteItems notes ≠ []) :
    ((LinkDialog.noteItems notes)[0]?).map QListWidgetItem.hidden = some false := by
  cases notes with
  | nil => exact absurd rfl h
  | cons note rest => simp [LinkDialog.noteItems]

theorem LinkDialog.create_wellFormed (env : Env) (clipboard : QString) (settings : QSettings) :
    WellFormed (LinkDialog.create env clipboard settings) := by
  have base : WellFormed
      (LinkDialog.setCurrentRow
        { items := LinkDialog.noteItems env.fetchAll, currentRow := -1,
          firstVisibleNoteListRow := 0, urlEdit := [], nameLineEdit := [],
          focus := Widget.urlEdit, settings := settings } 0) := by
    intro _ hne
    exact LinkDialog.noteItems_head _ hne
  unfold LinkDialog.create
  simp only
  split
  · obtain ⟨name, hname⟩ := LinkDialog.setUrlEditText_frame env
      (LinkDialog.setCurrentRow
        { items := LinkDialog.noteItems env.fetchAll, currentRow := -1,
          firstVisibleNoteListRow := 0, urlEdit := [], nameLineEdit := [],
          focus := Widget.urlEdit, settings := settings } 0) clipboard
    rw [hname]
    exact base.of_same_rows rfl rfl
  · exact base

theorem LinkDialog.search_wellFormed (env : Env) (d : LinkDialog) (q : QString) :
    WellFormed (LinkDialog.on_searchLineEdit_textChanged env d q) := by
  by_cases hne : d.items = []
  · intro _ h
    rw [LinkDialog.search_items, hne] at h
    exact absurd rfl h
  · rcases LinkDialog.search_tracks env d q (Or.inl hne) with
      ⟨k, hk, ⟨item, hitem, hvis⟩, _⟩ | ⟨hnone, _⟩
    · intro _ _
      rw [hk]
      simp [hitem, hvis]
    · intro h0 _
      rw [hnone] at h0
      omega

theorem LinkDialog.eventFilter_wellFormed (env : Env) (d : LinkDialog) (obj : Widget)
    (event : QEvent) (h : WellFormed d) :
    WellFormed (LinkDialog.eventFilter env d obj event).2 := by
  apply h.of_same_rows
  · unfold LinkDialog.eventFilter
    repeat' split
    all_goals rfl
  · unfold LinkDialog.eventFilter
    repeat' split
    all_goals rfl

theorem LinkDialog.on_urlEdit_textChanged_wellFormed (env : Env) (d : LinkDialog)
    (text : QString) (h : WellFormed d) :
    WellFormed (LinkDialog.on_urlEdit_textChanged env d text) := by
  obtain ⟨name, hname⟩ := LinkDialog.on_urlEdit_textChanged_frame env d text
  rw [hname]
  exact h.of_same_rows rfl rfl

/-! ## The file and directory pickers -/

theorem isEmpty_file_append (t : QString) : (lit "file://" ++ t).isEmpty = false := by
  rw [show lit "file://" = 'f'.toNat :: lit "ile://" by decide]
  rfl

theorem LinkDialog.addFileUrl_portable (env : Env) (d : LinkDialog)
    (hp : env.isInPortableMode = true) :
    ∃ t name, LinkDialog.addFileUrl env d =
      { d with settings := { d.settings with lastSelectedFileUrl := lit "file://" ++ t },
               urlEdit := lit "file://" ++ t, nameLineEdit := name } := by
  unfold LinkDialog.addFileUrl
  simp only [hp, if_true, isEmpty_file_append, Bool.not_false]
  exact ⟨_, LinkDialog.setUrlEditText_frame env _ _⟩

theorem LinkDialog.addDirectoryUrl_portable (env : Env) (d : LinkDialog)
    (hp : env.isInPortableMode = true) :
    ∃ t name, LinkDialog.addDirectoryUrl env d =
      { d with settings := { d.settings with lastSelectedDirectoryUrl := lit "file://" ++ t },
               urlEdit := lit "file://" ++ t, nameLineEdit := name } := by
  unfold LinkDialog.addDirectoryUrl
  simp only [hp, if_true, isEmpty_file_append, Bool.not_false]
  exact ⟨_, LinkDialog.setUrlEditText_frame env _ _⟩

/-- Outside portable mode a cancelled file picker leaves the whole state as it is. -/
theorem LinkDialog.addFileUrl_cancel_normal (env : Env) (d : LinkDialog)
    (hp : env.isInPortableMode = false)
    (hcancel : env.urlToString
      (env.getOpenFileUrl (QUrl.mk d.settings.lastSelectedFileUrl)) = []) :
    LinkDialog.addFileUrl env d = d := by
  unfold LinkDialog.addFileUrl
  simp [hp, hcancel]

/-- Outside portable mode a cancelled directory picker leaves the whole state as it is. -/
theorem LinkDialog.addDirectoryUrl_cancel_normal (env : Env) (d : LinkDialog)
    (hp : env.isInPortableMode = false)
    (hcancel : env.urlToString
      (env.getExistingDirectoryUrl (QUrl.mk d.settings.lastSelectedDirectoryUrl)) = []) :
    LinkDialog.addDirectoryUrl env d = d := by
  unfold LinkDialog.addDirectoryUrl
  simp [hp, hcancel]

/-- C5, on the code. In portable mode `addFileUrl` and `addDirectoryUrl` store a setting and
write the URL field whatever the picker returns, the empty URL of a cancelled picker
included: the stored value and the text of the field begin with `file://`, so neither is
empty afterwards. The guard on an empty URL string only has an effect outside portable
mode (`LinkDialog.addFileUrl_cancel_normal`, `LinkDialog.addDirectoryUrl_cancel_normal`). -/
theorem addUrl_portable_cancel_overwrites (env : Env) (d : LinkDialog)
    (hp : env.isInPortableMode = true) :
    (lit "file://" <+: (LinkDialog.addFileUrl env d).settings.lastSelectedFileUrl ∧
        lit "file://" <+: (LinkDialog.addFileUrl env d).urlEdit) ∧
      (lit "file://" <+: (LinkDialog.addDirectoryUrl env d).settings.lastSelectedDirectoryUrl ∧
        lit "file://" <+: (LinkDialog.addDirectoryUrl env d).urlEdit) := by
  obtain ⟨t1, n1, h1⟩ := LinkDialog.addFileUrl_portable env d hp
  obtain ⟨t2, n2, h2⟩ := LinkDialog.addDirectoryUrl_portable env d hp
  rw [h1, h2]
  exact ⟨⟨List.prefix_append _ _, List.prefix_append _ _⟩,
    ⟨List.prefix_append _ _, List.prefix_append _ _⟩⟩

theorem addUrl_portable_cancel_overwrites_witness :
    samplePortableEnv.isInPortableMode = true ∧
      samplePortableEnv.getOpenFileUrl (QUrl.mk (lit "file:///data/")) = QUrl.mk [] ∧
      samplePortableEnv.getExistingDirectoryUrl (QUrl.mk (lit "file:///data/")) = QUrl.mk [] ∧
      sampleDialog.settings = ⟨[], []⟩ ∧ sampleDialog.urlEdit = [] ∧
      (LinkDialog.addFileUrl samplePortableEnv sampleDialog).settings.lastSelectedFileUrl =
        lit "file://../" ∧
      (LinkDialog.addFileUrl samplePortableEnv sampleDialog).urlEdit = lit "file://../" ∧
      (LinkDialog.addDirectoryUrl samplePortableEnv
        sampleDialog).settings.lastSelectedDirectoryUrl = lit "file://../" ∧
      (LinkDialog.addDirectoryUrl samplePortableEnv sampleDialog).urlEdit = lit "file://../" ∧
      lit "file://" <+:
        (LinkDialog.addFileUrl samplePortableEnv sampleDialog).settings.lastSelectedFileUrl :=
  ⟨by decide, by decide, by decide, by decide, by decide, by decide, by decide, by decide,
    by decide, (addUrl_portable_cancel_overwrites samplePortableEnv sampleDialog
      (by decide)).1.1⟩

end QOwnNotes
